import Mathlib

/-!
Shallow embedding of the soundscape DSP core (src/granular.rs, src/echo_canceller.rs,
src/effects.rs, and the dreamy-mode output loop of src/main.rs).

Modelling conventions:
* f32 arithmetic is modelled over ℚ (exact real arithmetic).
* Transcendental library functions (cos, sin, exp, sqrt, π) are bundled in a
  `MathOracle` of unspecified rational-valued functions; claims that need a
  property of them (such as the sine being bounded by 1) take it as a hypothesis.
* The engine PRNG (rand StdRng) is modelled as an infinite stream of unit draws
  u : ℕ → ℚ together with a cursor stored in the engine state; `randomRange`
  mirrors rand `random_range(lo..hi)`, which panics (here: `none`) when the
  half-open range is empty, i.e. when ¬ lo < hi.
* Fallible operations (Rust panics: out-of-bounds indexing, modulus by zero,
  empty-range sampling) return `Option`.
* Rust `as usize` casts of nonnegative f32 values are `Int.toNat ∘ Int.floor`
  (truncation; negative values saturate to 0, as in Rust).
* One property is decided by f32 rounding rather than by exact values: for it,
  the rem_euclid path of GrainBuffer::read is additionally modelled
  bit-faithfully (IEEE fmod is exact; the compensating addition for a negative
  remainder rounds to nearest even with a 24-bit significand) as `read_f32`.
-/

/-- Oracle for the f32 math library functions used by the source. -/
structure MathOracle where
  cos : ℚ → ℚ
  sin : ℚ → ℚ
  exp : ℚ → ℚ
  sqrt : ℚ → ℚ
  pi : ℚ

/-- Model of rand `random_range(lo..hi)` over the draw stream `u` with cursor `k`.
Rust panics when the half-open range is empty, so the result is `none` iff ¬ lo < hi. -/
def randomRange (u : ℕ → ℚ) (k : ℕ) (lo hi : ℚ) : Option (ℚ × ℕ) :=
  if lo < hi then some (lo + (hi - lo) * u k, k + 1) else none

/-- Circular buffer for storing audio samples (src/granular.rs `GrainBuffer`). -/
structure GrainBuffer where
  buffer : List ℚ
  write_pos : ℕ
  capacity : ℕ
deriving DecidableEq

/-- GrainBuffer::new. -/
def GrainBuffer.new (capacity_samples : ℕ) : GrainBuffer :=
  { buffer := List.replicate capacity_samples 0
    write_pos := 0
    capacity := capacity_samples }

/-- GrainBuffer::write; `none` models the panic on indexing an empty buffer or
taking a modulus by capacity 0. -/
def GrainBuffer.write (b : GrainBuffer) (sample : ℚ) : Option GrainBuffer :=
  if b.write_pos < b.buffer.length ∧ b.capacity ≠ 0 then
    some { b with buffer := b.buffer.set b.write_pos sample
                  write_pos := (b.write_pos + 1) % b.capacity }
  else none

/-- GrainBuffer::read over exact arithmetic: `position.rem_euclid(capacity)` is
`position − C·⌊position/C⌋` (strictly below C); `pos as usize` truncates; the two
sample indexings carry explicit bound checks so that an out-of-bounds access is
`none` (a Rust panic). The f32 evaluation of rem_euclid, whose rounded
compensating addition can yield the capacity itself, is modelled separately by
`read_f32` below. -/
def GrainBuffer.read (b : GrainBuffer) (position : ℚ) : Option ℚ :=
  if b.capacity = 0 then none else
  let pos : ℚ := position - (b.capacity : ℚ) * ⌊position / (b.capacity : ℚ)⌋
  let idx : ℕ := (⌊pos⌋).toNat
  let frac : ℚ := pos - (idx : ℚ)
  if idx < b.buffer.length ∧ (idx + 1) % b.capacity < b.buffer.length then
    let sample1 := b.buffer.getD idx 0
    let sample2 := b.buffer.getD ((idx + 1) % b.capacity) 0
    some (sample1 + (sample2 - sample1) * frac)
  else none

/-- Truncation toward zero of a rational: the quotient rounding of IEEE fmod,
which Rust f32 rem_euclid computes first. -/
def ratTrunc (q : ℚ) : ℤ := if q < 0 then -⌊-q⌋ else ⌊q⌋

/-- Round a positive rational to the nearest binary32 value (24-bit
significand, ties to even); overflow and subnormal ranges are not reached by
the uses in this file. -/
def roundF32pos (x : ℚ) : ℚ :=
  let e : ℤ := Int.log 2 x
  let scale : ℚ := 2 ^ (e - 23)
  let m : ℚ := x / scale
  let whole : ℤ := ⌊m⌋
  let fr : ℚ := m - whole
  let n : ℤ :=
    if fr < 1/2 then whole
    else if 1/2 < fr then whole + 1
    else if whole % 2 = 0 then whole else whole + 1
  (n : ℚ) * scale

/-- Round-to-nearest-even for binary32, extended to all rationals by sign. -/
def roundF32 (x : ℚ) : ℚ :=
  if x = 0 then 0 else if 0 < x then roundF32pos x else -roundF32pos (-x)

/-- The f32 evaluation of `x.rem_euclid(den)` for den > 0 and representable
arguments: IEEE fmod (`x - den·trunc(x/den)`) is exact, and the compensating
addition `r + den` performed for a negative remainder rounds to nearest even —
this rounding is what can push the result up to exactly `den`. -/
def rem_euclid_f32 (x den : ℚ) : ℚ :=
  let r := x - den * (ratTrunc (x / den) : ℚ)
  if r < 0 then roundF32 (r + den) else r

/-- GrainBuffer::read with the f32 rem_euclid path modelled bit-faithfully; it
differs from the exact-arithmetic `read` above only in the rounding of
rem_euclid's compensating addition — the step that decides whether the
truncated index stays below the capacity. -/
def GrainBuffer.read_f32 (b : GrainBuffer) (position : ℚ) : Option ℚ :=
  if b.capacity = 0 then none else
  let pos : ℚ := rem_euclid_f32 position (b.capacity : ℚ)
  let idx : ℕ := (⌊pos⌋).toNat
  let frac : ℚ := pos - (idx : ℚ)
  if idx < b.buffer.length ∧ (idx + 1) % b.capacity < b.buffer.length then
    let sample1 := b.buffer.getD idx 0
    let sample2 := b.buffer.getD ((idx + 1) % b.capacity) 0
    some (sample1 + (sample2 - sample1) * frac)
  else none

/-- Individual grain parameters (src/granular.rs `Grain`). -/
structure Grain where
  start_pos : ℚ
  current_pos : ℚ
  length : ℕ
  pitch : ℚ
  amplitude : ℚ
  pan : ℚ
  active : Bool
deriving DecidableEq

/-- Grain::new. -/
def Grain.new (start_pos : ℚ) (length : ℕ) (pitch : ℚ) : Grain :=
  { start_pos
    current_pos := 0
    length
    pitch
    amplitude := 1
    pan := 1/2
    active := true }

/-- Grain::window (Hann window for smooth grain envelope). -/
def Grain.window (M : MathOracle) (g : Grain) : ℚ :=
  if g.active = false then 0 else
  let phase := g.current_pos / (g.length : ℚ)
  if 1 ≤ phase then 0 else
  1/2 * (1 - M.cos (2 * M.pi * phase))

/-- Grain::process. -/
def Grain.process (M : MathOracle) (buffer : GrainBuffer) (g : Grain) : Option (ℚ × Grain) :=
  if g.active = false then some (0, g) else
  let window := g.window M
  let read_pos := g.start_pos + g.current_pos * g.pitch
  match buffer.read read_pos with
  | none => none
  | some s =>
    let sample := s * window * g.amplitude
    let cp := g.current_pos + 1
    some (sample, { g with current_pos := cp
                           active := if (g.length : ℚ) ≤ cp then false else g.active })

/-- Main granular synthesis engine state (src/granular.rs `GranularEngine`);
`rng` is the cursor into the draw stream. -/
structure GranularEngine where
  buffer : GrainBuffer
  grains : List Grain
  max_grains : ℕ
  sample_rate : ℚ
  grain_size_ms : ℚ
  grain_density : ℚ
  pitch_shift : ℚ
  pitch_randomness : ℚ
  time_randomness : ℚ
  time_until_next_grain : ℚ
  rng : ℕ
deriving DecidableEq

/-- GranularEngine::new (the StdRng seeding is modelled by the external draw
stream, with the cursor starting at 0). -/
def GranularEngine.new (sample_rate buffer_size_ms : ℚ) (max_grains : ℕ) : GranularEngine :=
  let buffer_samples := (⌊buffer_size_ms * sample_rate / 1000⌋).toNat
  { buffer := GrainBuffer.new buffer_samples
    grains := []
    max_grains
    sample_rate
    grain_size_ms := 100
    grain_density := 20
    pitch_shift := 1
    pitch_randomness := 1/20
    time_randomness := 3/10
    time_until_next_grain := 0
    rng := 0 }

/-- GranularEngine::write_input. -/
def GranularEngine.write_input (e : GranularEngine) (sample : ℚ) : Option GranularEngine :=
  (e.buffer.write sample).map (fun b => { e with buffer := b })

/-- GranularEngine::spawn_grain. -/
def GranularEngine.spawn_grain (u : ℕ → ℚ) (e : GranularEngine) : Option GranularEngine :=
  let grain_size_samples := (⌊e.grain_size_ms * e.sample_rate / 1000⌋).toNat
  match randomRange u e.rng 0 (1/2) with
  | none => none
  | some (lookback, k1) =>
    let start_pos := (e.buffer.write_pos : ℚ) - lookback * (e.buffer.capacity : ℚ)
    match randomRange u k1 (-e.pitch_randomness) e.pitch_randomness with
    | none => none
    | some (pitch_variation, k2) =>
      let pitch := e.pitch_shift * (1 + pitch_variation)
      some { e with grains := e.grains ++ [Grain.new start_pos grain_size_samples pitch]
                    rng := k2 }

/-- Loop body of GranularEngine::process over the grain list: active grains are
processed and counted, inactive ones pass through untouched. -/
def processGrains (M : MathOracle) (buf : GrainBuffer) : List Grain → Option (ℚ × ℕ × List Grain)
  | [] => some (0, 0, [])
  | g :: gs =>
    if g.active then
      match g.process M buf with
      | none => none
      | some (s, g') =>
        match processGrains M buf gs with
        | none => none
        | some (o, c, gs') => some (s + o, c + 1, g' :: gs')
    else
      match processGrains M buf gs with
      | none => none
      | some (o, c, gs') => some (o, c, g :: gs')

/-- GranularEngine::process. -/
def GranularEngine.process (M : MathOracle) (u : ℕ → ℚ) (e : GranularEngine) :
    Option (ℚ × GranularEngine) :=
  let e0 := { e with time_until_next_grain := e.time_until_next_grain - 1 }
  let spawned : Option GranularEngine :=
    if e0.time_until_next_grain ≤ 0 ∧ e0.grains.length < e0.max_grains then
      match e0.spawn_grain u with
      | none => none
      | some e1 =>
        let interval := e1.sample_rate / e1.grain_density
        let randomness := interval * e1.time_randomness
        match randomRange u e1.rng (-randomness) randomness with
        | none => none
        | some (j, k) => some { e1 with time_until_next_grain := interval + j, rng := k }
    else some e0
  match spawned with
  | none => none
  | some e2 =>
    match processGrains M e2.buffer e2.grains with
    | none => none
    | some (output, active_count, grains') =>
      let out := if 0 < active_count then output / M.sqrt (active_count : ℚ) else output
      some (out, { e2 with grains := grains'.filter (fun g => g.active) })

/-- DreamyPreset::configure_engine. -/
def DreamyPreset.configure_engine (e : GranularEngine) : GranularEngine :=
  { e with grain_size_ms := 120
           grain_density := 15
           pitch_shift := 23/25
           pitch_randomness := 3/25
           time_randomness := 3/5 }

/-- Feed a sample sequence through the engine the way the dreamy loop does:
write_input then process, collecting the process outputs. -/
def runEngine (M : MathOracle) (u : ℕ → ℚ) : List ℚ → GranularEngine → Option (List ℚ × GranularEngine)
  | [], e => some ([], e)
  | x :: xs, e =>
    match e.write_input x with
    | none => none
    | some e1 =>
      match e1.process M u with
      | none => none
      | some (y, e2) =>
        match runEngine M u xs e2 with
        | none => none
        | some (ys, e3) => some (y :: ys, e3)

/-- Adaptive echo canceller state (src/echo_canceller.rs `EchoCanceller`). -/
structure EchoCanceller where
  filter_weights : List ℚ
  reference_buffer : List ℚ
  buffer_pos : ℕ
  step_size : ℚ
  regularization : ℚ
  adaptation_enabled : Bool
deriving DecidableEq

/-- EchoCanceller::new. -/
def EchoCanceller.new (filter_length : ℕ) (step_size : ℚ) : EchoCanceller :=
  { filter_weights := List.replicate filter_length 0
    reference_buffer := List.replicate filter_length 0
    buffer_pos := 0
    step_size
    regularization := 1/1000000
    adaptation_enabled := true }

/-- EchoCanceller::compute_echo_estimate (reverse-chronological convolution). -/
def EchoCanceller.compute_echo_estimate (e : EchoCanceller) : ℚ :=
  let filter_len := e.filter_weights.length
  ((List.range filter_len).map (fun i =>
    e.filter_weights.getD i 0 *
      e.reference_buffer.getD ((e.buffer_pos + filter_len - i) % filter_len) 0)).sum

/-- EchoCanceller::update_filter_weights (NLMS). -/
def EchoCanceller.update_filter_weights (e : EchoCanceller) (error : ℚ) : EchoCanceller :=
  let filter_len := e.filter_weights.length
  let power := ((List.range filter_len).map (fun i =>
    let sample := e.reference_buffer.getD ((e.buffer_pos + filter_len - i) % filter_len) 0
    sample * sample)).sum
  let normalized_step := e.step_size / (power + e.regularization)
  { e with filter_weights := (List.range filter_len).map (fun i =>
      e.filter_weights.getD i 0 +
        normalized_step * error *
          e.reference_buffer.getD ((e.buffer_pos + filter_len - i) % filter_len) 0) }

/-- EchoCanceller::process; the guard is the structural invariant maintained by
construction (equal-length weight and reference vectors with an in-range write
position): on it the source indexings are in bounds, off of it they panic. -/
def EchoCanceller.process (e : EchoCanceller) (mic_input speaker_output : ℚ) :
    Option (ℚ × EchoCanceller) :=
  if e.buffer_pos < e.reference_buffer.length ∧
      e.reference_buffer.length = e.filter_weights.length then
    let e1 := { e with reference_buffer := e.reference_buffer.set e.buffer_pos speaker_output }
    let echo_estimate := e1.compute_echo_estimate
    let error_signal := mic_input - echo_estimate
    let e2 := if e1.adaptation_enabled then e1.update_filter_weights error_signal else e1
    some (error_signal, { e2 with buffer_pos := (e2.buffer_pos + 1) % e2.reference_buffer.length })
  else none

/-- EchoCanceller::reset (zeroes weights and reference buffer in place). -/
def EchoCanceller.reset (e : EchoCanceller) : EchoCanceller :=
  { e with filter_weights := e.filter_weights.map (fun _ => 0)
           reference_buffer := e.reference_buffer.map (fun _ => 0) }

/-- EchoCanceller::set_adaptation_enabled. -/
def EchoCanceller.set_adaptation_enabled (e : EchoCanceller) (enabled : Bool) : EchoCanceller :=
  { e with adaptation_enabled := enabled }

/-- Run the echo canceller over a mic sequence with the reference fixed at 0. -/
def runAECZero : List ℚ → EchoCanceller → Option (List ℚ × EchoCanceller)
  | [], e => some ([], e)
  | m :: ms, e =>
    match e.process m 0 with
    | none => none
    | some (y, e1) =>
      match runAECZero ms e1 with
      | none => none
      | some (ys, e2) => some (y :: ys, e2)

/-- Voice activity detector state (src/echo_canceller.rs `VoiceActivityDetector`). -/
structure VoiceActivityDetector where
  threshold : ℚ
  energy : ℚ
  attack : ℚ
  release : ℚ
deriving DecidableEq

/-- VoiceActivityDetector::new. -/
def VoiceActivityDetector.new (M : MathOracle) (sample_rate threshold : ℚ) :
    VoiceActivityDetector :=
  let attack_time : ℚ := 1/100
  let release_time : ℚ := 1/10
  { threshold
    energy := 0
    attack := M.exp (-1 / (sample_rate * attack_time))
    release := M.exp (-1 / (sample_rate * release_time)) }

/-- VoiceActivityDetector::process. -/
def VoiceActivityDetector.process (v : VoiceActivityDetector) (sample : ℚ) :
    Bool × VoiceActivityDetector :=
  let instant_energy := sample * sample
  let energy' :=
    if v.energy < instant_energy then
      v.attack * v.energy + (1 - v.attack) * instant_energy
    else
      v.release * v.energy + (1 - v.release) * instant_energy
  (decide (v.threshold < energy'), { v with energy := energy' })

/-- Simple all-pass filter for reverb (src/effects.rs `AllPass`). -/
structure AllPass where
  buffer : List ℚ
  pos : ℕ
  feedback : ℚ
deriving DecidableEq

/-- AllPass::new. -/
def AllPass.new (delay_samples : ℕ) (feedback : ℚ) : AllPass :=
  { buffer := List.replicate delay_samples 0
    pos := 0
    feedback }

/-- AllPass::process; `none` models the panic on an empty delay line. -/
def AllPass.process (a : AllPass) (input : ℚ) : Option (ℚ × AllPass) :=
  if a.pos < a.buffer.length then
    let delayed := a.buffer.getD a.pos 0
    let output := -input + delayed
    some (output, { a with buffer := a.buffer.set a.pos (input + delayed * a.feedback)
                           pos := (a.pos + 1) % a.buffer.length })
  else none

/-- Simple comb filter for reverb (src/effects.rs `Comb`). -/
structure Comb where
  buffer : List ℚ
  pos : ℕ
  feedback : ℚ
  damping : ℚ
  filter_state : ℚ
deriving DecidableEq

/-- Comb::new. -/
def Comb.new (delay_samples : ℕ) (feedback damping : ℚ) : Comb :=
  { buffer := List.replicate delay_samples 0
    pos := 0
    feedback
    damping
    filter_state := 0 }

/-- Comb::process; `none` models the panic on an empty delay line. -/
def Comb.process (c : Comb) (input : ℚ) : Option (ℚ × Comb) :=
  if c.pos < c.buffer.length then
    let delayed := c.buffer.getD c.pos 0
    let filter_state' := delayed * (1 - c.damping) + c.filter_state * c.damping
    some (delayed, { c with buffer := c.buffer.set c.pos (input + filter_state' * c.feedback)
                            filter_state := filter_state'
                            pos := (c.pos + 1) % c.buffer.length })
  else none

/-- Schroeder reverb (src/effects.rs `Reverb`). -/
structure Reverb where
  combs : List Comb
  allpasses : List AllPass
  wet : ℚ
  dry : ℚ
deriving DecidableEq

/-- Reverb::new (prime delays scaled by sample_rate/44100 and truncated). -/
def Reverb.new (sample_rate wet dry : ℚ) : Reverb :=
  let comb_delays : List ℕ := [1557, 1617, 1491, 1422, 1277, 1356, 1188, 1116]
  let allpass_delays : List ℕ := [225, 556, 441, 341]
  let scale := sample_rate / 44100
  { combs := comb_delays.map (fun delay =>
      Comb.new (⌊(delay : ℚ) * scale⌋).toNat (84/100) (1/5))
    allpasses := allpass_delays.map (fun delay =>
      AllPass.new (⌊(delay : ℚ) * scale⌋).toNat (1/2))
    wet
    dry }

/-- Parallel comb bank of Reverb::process (sum of per-comb outputs). -/
def combsProcess : List Comb → ℚ → Option (ℚ × List Comb)
  | [], _ => some (0, [])
  | c :: cs, input =>
    match c.process input with
    | none => none
    | some (y, c') =>
      match combsProcess cs input with
      | none => none
      | some (s, cs') => some (y + s, c' :: cs')

/-- Serial all-pass chain of Reverb::process. -/
def allpassChain : List AllPass → ℚ → Option (ℚ × List AllPass)
  | [], x => some (x, [])
  | a :: rest, x =>
    match a.process x with
    | none => none
    | some (y, a') =>
      match allpassChain rest y with
      | none => none
      | some (z, rest') => some (z, a' :: rest')

/-- Reverb::process. -/
def Reverb.process (r : Reverb) (input : ℚ) : Option (ℚ × Reverb) :=
  match combsProcess r.combs input with
  | none => none
  | some (s, combs') =>
    let comb_sum := s / (r.combs.length : ℚ)
    match allpassChain r.allpasses comb_sum with
    | none => none
    | some (y, allpasses') =>
      some (r.dry * input + r.wet * y, { r with combs := combs', allpasses := allpasses' })

/-- Simple one-pole lowpass filter (src/effects.rs `OnePole`). -/
structure OnePole where
  state : ℚ
  coeff : ℚ
deriving DecidableEq

/-- OnePole::calculate_coeff. -/
def OnePole.calculate_coeff (M : MathOracle) (sample_rate cutoff_hz : ℚ) : ℚ :=
  let omega := 2 * M.pi * cutoff_hz / sample_rate
  omega / (1 + omega)

/-- OnePole::new. -/
def OnePole.new (M : MathOracle) (sample_rate cutoff_hz : ℚ) : OnePole :=
  { state := 0, coeff := OnePole.calculate_coeff M sample_rate cutoff_hz }

/-- OnePole::process. -/
def OnePole.process (p : OnePole) (input : ℚ) : ℚ × OnePole :=
  let state' := p.state + p.coeff * (input - p.state)
  (state', { p with state := state' })

/-- Effects chain for dreamy processing (src/effects.rs `EffectsChain`). -/
structure EffectsChain where
  reverb : Reverb
  lowpass : OnePole
  chorus_delay : List ℚ
  chorus_pos : ℕ
  chorus_phase : ℚ
  sample_rate : ℚ
deriving DecidableEq

/-- EffectsChain::new_dreamy. -/
def EffectsChain.new_dreamy (M : MathOracle) (sample_rate : ℚ) : EffectsChain :=
  { reverb := Reverb.new sample_rate (4/10) (6/10)
    lowpass := OnePole.new M sample_rate 4000
    chorus_delay := List.replicate 4410 0
    chorus_pos := 0
    chorus_phase := 0
    sample_rate }

/-- EffectsChain::process_chorus; the guard captures the usize subtraction and
the two delay-line indexings, which panic when violated. -/
def EffectsChain.process_chorus (M : MathOracle) (ec : EffectsChain) (input : ℚ) :
    Option (ℚ × EffectsChain) :=
  let lfo_freq : ℚ := 1/2
  let phase1 := ec.chorus_phase + 2 * M.pi * lfo_freq / ec.sample_rate
  let phase2 := if 2 * M.pi < phase1 then phase1 - 2 * M.pi else phase1
  let lfo := M.sin phase2
  let delay_offset := (⌊lfo * 1000 + 2000⌋).toNat
  let n := ec.chorus_delay.length
  if n ≠ 0 ∧ delay_offset ≤ ec.chorus_pos + n ∧ ec.chorus_pos < n then
    let delayed_pos := (ec.chorus_pos + n - delay_offset) % n
    let delayed := ec.chorus_delay.getD delayed_pos 0
    some (7/10 * input + 3/10 * delayed,
      { ec with chorus_delay := ec.chorus_delay.set ec.chorus_pos input
                chorus_pos := (ec.chorus_pos + 1) % n
                chorus_phase := phase2 })
  else none

/-- EffectsChain::process (lowpass, then chorus, then reverb). -/
def EffectsChain.process (M : MathOracle) (ec : EffectsChain) (input : ℚ) :
    Option (ℚ × EffectsChain) :=
  let (filtered, lowpass') := ec.lowpass.process input
  match EffectsChain.process_chorus M { ec with lowpass := lowpass' } filtered with
  | none => none
  | some (chorus, ec1) =>
    match ec1.reverb.process chorus with
    | none => none
    | some (with_reverb, reverb') => some (with_reverb, { ec1 with reverb := reverb' })

/-- State captured by the dreamy-mode output callback (src/main.rs
`build_output_stream`). -/
structure DreamyState where
  echo_canceller : EchoCanceller
  vad : VoiceActivityDetector
  engine : GranularEngine
  effects : EffectsChain
  previous_speaker_output : ℚ
deriving DecidableEq

/-- Initial state built by build_output_stream for the dreamy mode. -/
def buildOutputState (M : MathOracle) (sample_rate : ℚ) : DreamyState :=
  { echo_canceller := EchoCanceller.new 1024 (1/2)
    vad := VoiceActivityDetector.new M sample_rate (1/10000)
    engine := DreamyPreset.configure_engine (GranularEngine.new sample_rate 2000 64)
    effects := EffectsChain.new_dreamy M sample_rate
    previous_speaker_output := 0 }

/-- One frame of the dreamy output callback: echo cancellation against
`previous_speaker_output`, VAD gating of adaptation, granular write and
process, then the effects chain. The source binds `previous_speaker_output`
once and never reassigns it. -/
def dreamyStep (M : MathOracle) (u : ℕ → ℚ) (input_sample : ℚ) (s : DreamyState) :
    Option (ℚ × DreamyState) :=
  match s.echo_canceller.process input_sample s.previous_speaker_output with
  | none => none
  | some (echo_cancelled, aec1) =>
    let (speaker_active, vad1) := s.vad.process |s.previous_speaker_output|
    let aec2 := aec1.set_adaptation_enabled speaker_active
    match s.engine.write_input echo_cancelled with
    | none => none
    | some engine1 =>
      match engine1.process M u with
      | none => none
      | some (granular_output, engine2) =>
        match s.effects.process M granular_output with
        | none => none
        | some (processed, effects1) =>
          some (processed,
            { echo_canceller := aec2
              vad := vad1
              engine := engine2
              effects := effects1
              previous_speaker_output := s.previous_speaker_output })

/-- Concrete oracle used by the closed witness theorems (the values are
irrelevant to the properties being witnessed). -/
def M0 : MathOracle :=
  { cos := fun _ => 1, sin := fun _ => 0, exp := fun _ => 1, sqrt := fun _ => 1, pi := 3 }

/-- Concrete draw stream used by the closed witness theorems. -/
def u0 : ℕ → ℚ := fun _ => 0

/-- Advanced and wrapped chorus LFO phase of one EffectsChain::process_chorus call. -/
def chorusPhase (M : MathOracle) (ec : EffectsChain) : ℚ :=
  let lfo_freq : ℚ := 1/2
  let phase1 := ec.chorus_phase + 2 * M.pi * lfo_freq / ec.sample_rate
  if 2 * M.pi < phase1 then phase1 - 2 * M.pi else phase1

/-- Sample-count delay offset computed by EffectsChain::process_chorus. -/
def chorusOffset (M : MathOracle) (ec : EffectsChain) : ℕ :=
  (⌊M.sin (chorusPhase M ec) * 1000 + 2000⌋).toNat

/-- A call against the engine API: a write_input or a process tick. -/
inductive EngineOp where
  | write (x : ℚ)
  | step
deriving DecidableEq

/-- Run a sequence of engine API calls, stopping at the first panic. -/
def runOps (M : MathOracle) (u : ℕ → ℚ) : List EngineOp → GranularEngine → Option GranularEngine
  | [], e => some e
  | op :: ops, e =>
    match (match op with
           | EngineOp.write x => e.write_input x
           | EngineOp.step => (e.process M u).map Prod.snd) with
    | none => none
    | some e' => runOps M u ops e'

lemma getD_replicate_zero (n i : ℕ) : (List.replicate n (0:ℚ)).getD i 0 = 0 := by
  induction n generalizing i with
  | zero => simp [List.getD]
  | succ n ih =>
    cases i with
    | zero => simp [List.replicate]
    | succ i => simp [List.replicate, ih]

lemma set_replicate_zero (n p : ℕ) : (List.replicate n (0:ℚ)).set p 0 = List.replicate n 0 := by
  induction n generalizing p with
  | zero => simp
  | succ n ih =>
    cases p with
    | zero => simp [List.replicate]
    | succ p => simp [List.replicate, ih]

lemma sum_map_range_zero (L : ℕ) (f : ℕ → ℚ) (h : ∀ i, i < L → f i = 0) :
    ((List.range L).map f).sum = 0 := by
  apply List.sum_eq_zero
  intro x hx
  rw [List.mem_map] at hx
  obtain ⟨i, hi, rfl⟩ := hx
  exact h i (List.mem_range.mp hi)

lemma rem_euclid_bounds (C : ℕ) (p : ℚ) (hC : 0 < C) :
    0 ≤ p - (C : ℚ) * ⌊p / (C : ℚ)⌋ ∧ p - (C : ℚ) * ⌊p / (C : ℚ)⌋ < (C : ℚ) := by
  have hC' : (0:ℚ) < (C : ℚ) := by exact_mod_cast hC
  have hne : (C : ℚ) ≠ 0 := ne_of_gt hC'
  constructor
  · have h1 : (⌊p / (C : ℚ)⌋ : ℚ) ≤ p / (C : ℚ) := Int.floor_le _
    have h2 : (C : ℚ) * (⌊p / (C : ℚ)⌋ : ℚ) ≤ (C : ℚ) * (p / (C : ℚ)) :=
      mul_le_mul_of_nonneg_left h1 hC'.le
    have h3 : (C : ℚ) * (p / (C : ℚ)) = p := by field_simp
    linarith
  · have h1 : p / (C : ℚ) < (⌊p / (C : ℚ)⌋ : ℚ) + 1 := Int.lt_floor_add_one _
    have h2 : (C : ℚ) * (p / (C : ℚ)) < (C : ℚ) * ((⌊p / (C : ℚ)⌋ : ℚ) + 1) :=
      (mul_lt_mul_left hC').mpr h1
    have h3 : (C : ℚ) * (p / (C : ℚ)) = p := by field_simp
    nlinarith

lemma rem_euclid_floor_lt (C : ℕ) (p : ℚ) (hC : 0 < C) :
    (⌊p - (C : ℚ) * ⌊p / (C : ℚ)⌋⌋).toNat < C := by
  obtain ⟨h0, h1⟩ := rem_euclid_bounds C p hC
  have hfl : ⌊p - (C : ℚ) * ⌊p / (C : ℚ)⌋⌋ < (C : ℤ) := by
    rw [Int.floor_lt]
    exact_mod_cast h1
  omega

lemma read_total (b : GrainBuffer) (p : ℚ) (hcap : 0 < b.capacity)
    (hlen : b.buffer.length = b.capacity) : (b.read p).isSome = true := by
  have hne : b.capacity ≠ 0 := Nat.pos_iff_ne_zero.mp hcap
  unfold GrainBuffer.read
  rw [if_neg hne]
  dsimp only
  rw [if_pos ⟨by rw [hlen]; exact rem_euclid_floor_lt b.capacity p hcap,
      by rw [hlen]; exact Nat.mod_lt _ hcap⟩]
  rfl

/-- Exact-arithmetic totality of the prescribed p mod C read semantics: for
every rational position (negative positions included), on a buffer with
positive capacity and a full-length backing store, the remainder lands in
[0, C), so both indices are in bounds and the read returns a value. The
program's f32 rem_euclid deviates from this at tiny negative positions, which
is the subject of C9 below. -/
theorem grain_buffer_read_in_bounds (b : GrainBuffer) (p : ℚ)
    (hcap : 0 < b.capacity) (hlen : b.buffer.length = b.capacity) :
    (⌊p - (b.capacity : ℚ) * ⌊p / (b.capacity : ℚ)⌋⌋).toNat < b.capacity ∧
    ((⌊p - (b.capacity : ℚ) * ⌊p / (b.capacity : ℚ)⌋⌋).toNat + 1) % b.capacity < b.capacity ∧
    (b.read p).isSome = true :=
  ⟨rem_euclid_floor_lt b.capacity p hcap, Nat.mod_lt _ hcap, read_total b p hcap hlen⟩

/-- Concrete instance of the exact-arithmetic totality at position −7/2 on a capacity-4 buffer. -/
theorem grain_buffer_read_in_bounds_witness :
    ((GrainBuffer.new 4).read (-7/2)).isSome = true :=
  (grain_buffer_read_in_bounds (GrainBuffer.new 4) (-7/2) (by decide) (by decide)).2.2

/-- Claim C8: on a GrainBuffer of capacity C with a full-length backing store,
read(k) for an integer 0 ≤ k < C returns exactly the stored sample at index k,
and read(k + 0.5) returns exactly the arithmetic mean of the samples at
indices k and (k+1) mod C. -/
theorem grain_buffer_read_interpolation (b : GrainBuffer) (k : ℕ)
    (hk : k < b.capacity) (hlen : b.buffer.length = b.capacity) :
    b.read (k : ℚ) = some (b.buffer.getD k 0) ∧
    b.read ((k : ℚ) + 1/2) =
      some ((b.buffer.getD k 0 + b.buffer.getD ((k + 1) % b.capacity) 0) / 2) := by
  have hcap : 0 < b.capacity := lt_of_le_of_lt (Nat.zero_le k) hk
  have hne : b.capacity ≠ 0 := Nat.pos_iff_ne_zero.mp hcap
  have hC : (0:ℚ) < (b.capacity : ℚ) := by exact_mod_cast hcap
  have hkk : (k : ℚ) < (b.capacity : ℚ) := by exact_mod_cast hk
  have hk1 : (k : ℚ) + 1 ≤ (b.capacity : ℚ) := by exact_mod_cast hk
  constructor
  · have hfl0 : ⌊(k : ℚ) / (b.capacity : ℚ)⌋ = 0 := by
      rw [Int.floor_eq_zero_iff]
      exact ⟨div_nonneg (by positivity) hC.le, (div_lt_one hC).mpr hkk⟩
    have hpos : (k : ℚ) - (b.capacity : ℚ) * ⌊(k : ℚ) / (b.capacity : ℚ)⌋ = (k : ℚ) := by
      rw [hfl0]; push_cast; ring
    unfold GrainBuffer.read
    rw [if_neg hne]
    dsimp only
    rw [hpos, Int.floor_natCast, Int.toNat_natCast]
    rw [if_pos ⟨by rw [hlen]; exact hk, by rw [hlen]; exact Nat.mod_lt _ hcap⟩]
    congr 1
    ring
  · have hfl0 : ⌊((k : ℚ) + 1/2) / (b.capacity : ℚ)⌋ = 0 := by
      rw [Int.floor_eq_zero_iff]
      constructor
      · exact div_nonneg (by positivity) hC.le
      · rw [div_lt_one hC]; linarith
    have hpos : ((k : ℚ) + 1/2) - (b.capacity : ℚ) * ⌊((k : ℚ) + 1/2) / (b.capacity : ℚ)⌋ =
        (k : ℚ) + 1/2 := by
      rw [hfl0]; push_cast; ring
    have hflk : ⌊(k : ℚ) + 1/2⌋ = (k : ℤ) := by
      rw [Int.floor_eq_iff]
      constructor
      · push_cast; linarith
      · push_cast; linarith
    unfold GrainBuffer.read
    rw [if_neg hne]
    dsimp only
    rw [hpos, hflk, Int.toNat_natCast]
    rw [if_pos ⟨by rw [hlen]; exact hk, by rw [hlen]; exact Nat.mod_lt _ hcap⟩]
    congr 1
    ring

/-- Witness for C8 on the concrete buffer [2, 4, 6] at k = 1 and k + 0.5 = 3/2. -/
theorem grain_buffer_read_interpolation_witness :
    GrainBuffer.read ⟨[2, 4, 6], 0, 3⟩ 1 = some 4 ∧
    GrainBuffer.read ⟨[2, 4, 6], 0, 3⟩ (3/2) = some 5 := by
  obtain ⟨h1, h2⟩ :=
    grain_buffer_read_interpolation ⟨[2, 4, 6], 0, 3⟩ 1 (by decide) (by decide)
  constructor
  · simpa using h1
  · have h3 : ((1:ℕ) : ℚ) + 1/2 = 3/2 := by norm_num
    rw [h3] at h2
    simp at h2
    norm_num at h2
    exact h2

/-- Claim C2: two GranularEngine runs constructed with the same parameters,
driven by the same PRNG seed (modelled as the draw stream), and fed the same
input sequence through write_input produce identical process() output
sequences: the engine step reads no state outside the engine value, the
stream, and the math oracle. -/
theorem granular_process_deterministic (M : MathOracle) (u u' : ℕ → ℚ)
    (inputs inputs' : List ℚ) (sample_rate buffer_size_ms : ℚ) (max_grains : ℕ)
    (hu : u = u') (hins : inputs = inputs') :
    runEngine M u inputs (GranularEngine.new sample_rate buffer_size_ms max_grains) =
    runEngine M u' inputs' (GranularEngine.new sample_rate buffer_size_ms max_grains) := by
  subst hu
  subst hins
  rfl

/-- Witness for C2 at a concrete seed stream and input list. -/
theorem granular_process_deterministic_witness :
    runEngine M0 u0 [1, 2] (GranularEngine.new 1000 10 2) =
    runEngine M0 u0 [1, 2] (GranularEngine.new 1000 10 2) :=
  granular_process_deterministic M0 u0 u0 [1, 2] [1, 2] 1000 10 2 rfl rfl

/-- Counterexample to C3 as stated: AllPass::new accepts a zero delay length
without rejection, yielding an empty delay line on which process() panics
(modelled as `none`: it would index into and take a modulus by a zero-length
buffer). -/
theorem allpass_zero_length_accepted :
    (AllPass.new 0 (1/2)).buffer = [] ∧ AllPass.process (AllPass.new 0 (1/2)) 1 = none := by
  constructor
  · rfl
  · rfl


/-- Claim C3 (amended): no construction-time validation exists; each
constructor produces a delay/filter buffer of exactly the given length, so the
buffer is non-empty exactly when the argument is positive, and for Reverb::new
the sample-rate-scaled truncated delays give non-empty buffers for every
sample_rate ≥ 196 (in particular at 44100). -/
theorem construction_length_is_argument :
    (∀ (delay_samples : ℕ) (feedback : ℚ),
      (AllPass.new delay_samples feedback).buffer.length = delay_samples) ∧
    (∀ (delay_samples : ℕ) (feedback damping : ℚ),
      (Comb.new delay_samples feedback damping).buffer.length = delay_samples) ∧
    (∀ (filter_length : ℕ) (step_size : ℚ),
      (EchoCanceller.new filter_length step_size).filter_weights.length = filter_length ∧
      (EchoCanceller.new filter_length step_size).reference_buffer.length = filter_length) ∧
    (∀ (sample_rate wet dry : ℚ), 196 ≤ sample_rate →
      ((Reverb.new sample_rate wet dry).combs.all (fun c => c.buffer.length != 0) = true ∧
       (Reverb.new sample_rate wet dry).allpasses.all (fun a => a.buffer.length != 0) = true)) := by
  have key : ∀ (sample_rate : ℚ), 196 ≤ sample_rate → ∀ d : ℕ, 225 ≤ d →
      (⌊(d : ℚ) * (sample_rate / 44100)⌋).toNat ≠ 0 := by
    intro sample_rate hR d hd
    have hd' : (225 : ℚ) ≤ (d : ℚ) := by exact_mod_cast hd
    have h1 : (1 : ℚ) ≤ (d : ℚ) * (sample_rate / 44100) := by nlinarith
    have h2 : (1 : ℤ) ≤ ⌊(d : ℚ) * (sample_rate / 44100)⌋ := by
      rw [Int.le_floor]; exact_mod_cast h1
    omega
  refine ⟨?_, ?_, ?_, ?_⟩
  · intro d f
    simp [AllPass.new]
  · intro d f dm
    simp [Comb.new]
  · intro L mu
    constructor <;> simp [EchoCanceller.new]
  · intro sample_rate wet dry hR
    constructor
    · rw [List.all_eq_true]
      intro c hc
      simp only [Reverb.new, List.mem_map] at hc
      obtain ⟨d, hd, rfl⟩ := hc
      fin_cases hd <;>
        simp only [Comb.new, List.length_replicate, bne_iff_ne, ne_eq] <;>
        exact key sample_rate hR _ (by norm_num)
    · rw [List.all_eq_true]
      intro a ha
      simp only [Reverb.new, List.mem_map] at ha
      obtain ⟨d, hd, rfl⟩ := ha
      fin_cases hd <;>
        simp only [AllPass.new, List.length_replicate, bne_iff_ne, ne_eq] <;>
        exact key sample_rate hR _ (by norm_num)

/-- Witness for the amended C3 at concrete arguments, in particular the reverb
at the canonical 44100 sample rate. -/
theorem construction_length_is_argument_witness :
    (AllPass.new 3 (1/2)).buffer.length = 3 ∧
    (Comb.new 5 (84/100) (1/5)).buffer.length = 5 ∧
    (EchoCanceller.new 7 (1/2)).filter_weights.length = 7 ∧
    ((Reverb.new 44100 (4/10) (6/10)).combs.all (fun c => c.buffer.length != 0) = true) :=
  ⟨construction_length_is_argument.1 3 (1/2),
   construction_length_is_argument.2.1 5 (84/100) (1/5),
   (construction_length_is_argument.2.2.1 7 (1/2)).1,
   (construction_length_is_argument.2.2.2 44100 (4/10) (6/10) (by norm_num)).1⟩

lemma spawn_grain_some (u : ℕ → ℚ) (e e' : GranularEngine)
    (h : e.spawn_grain u = some e') :
    e'.grains.length = e.grains.length + 1 ∧ e'.max_grains = e.max_grains ∧
    e'.buffer = e.buffer ∧ e'.sample_rate = e.sample_rate ∧
    e'.grain_density = e.grain_density ∧ e'.time_randomness = e.time_randomness ∧
    e'.grains.length ≤ e.grains.length + 1 := by
  unfold GranularEngine.spawn_grain randomRange at h
  rw [if_pos (by norm_num : (0:ℚ) < 1/2)] at h
  dsimp only at h
  by_cases hpr : -e.pitch_randomness < e.pitch_randomness
  · rw [if_pos hpr] at h
    dsimp only at h
    injection h with h
    subst h
    refine ⟨by simp, rfl, rfl, rfl, rfl, rfl, by simp⟩
  · rw [if_neg hpr] at h
    exact Option.noConfusion h

lemma processGrains_length (M : MathOracle) (buf : GrainBuffer) :
    ∀ (gs : List Grain) (o : ℚ) (c : ℕ) (gs' : List Grain),
      processGrains M buf gs = some (o, c, gs') → gs'.length = gs.length := by
  intro gs
  induction gs with
  | nil =>
    intro o c gs' h
    simp only [processGrains, Option.some.injEq, Prod.mk.injEq] at h
    obtain ⟨-, -, h3⟩ := h
    rw [← h3]
  | cons g gs ih =>
    intro o c gs' h
    simp only [processGrains] at h
    by_cases hg : g.active = true
    · rw [if_pos hg] at h
      cases hpg : g.process M buf with
      | none => rw [hpg] at h; exact Option.noConfusion h
      | some p =>
        obtain ⟨s, g2⟩ := p
        rw [hpg] at h
        cases hrec : processGrains M buf gs with
        | none => rw [hrec] at h; exact Option.noConfusion h
        | some q =>
          obtain ⟨o2, c2, gs2⟩ := q
          rw [hrec] at h
          simp only [Option.some.injEq, Prod.mk.injEq] at h
          obtain ⟨-, -, h3⟩ := h
          rw [← h3]
          simp [ih o2 c2 gs2 hrec]
    · rw [if_neg hg] at h
      cases hrec : processGrains M buf gs with
      | none => rw [hrec] at h; exact Option.noConfusion h
      | some q =>
        obtain ⟨o2, c2, gs2⟩ := q
        rw [hrec] at h
        simp only [Option.some.injEq, Prod.mk.injEq] at h
        obtain ⟨-, -, h3⟩ := h
        rw [← h3]
        simp [ih o2 c2 gs2 hrec]

lemma process_some_grains_bound (M : MathOracle) (u : ℕ → ℚ) (e : GranularEngine)
    (y : ℚ) (e' : GranularEngine) (h : e.process M u = some (y, e')) :
    e'.max_grains = e.max_grains ∧
    e'.grains.length ≤ max e.grains.length e.max_grains ∧
    (e.max_grains ≤ e.grains.length → e'.grains.length ≤ e.grains.length) := by
  unfold GranularEngine.process at h
  dsimp only at h
  by_cases hcond : e.time_until_next_grain - 1 ≤ 0 ∧ e.grains.length < e.max_grains
  · rw [if_pos hcond] at h
    cases hsp : GranularEngine.spawn_grain u
        { e with time_until_next_grain := e.time_until_next_grain - 1 } with
    | none => rw [hsp] at h; exact Option.noConfusion h
    | some e1 =>
      rw [hsp] at h
      dsimp only at h
      obtain ⟨hlen1, hmax1, -, -, -, -, -⟩ := spawn_grain_some _ _ _ hsp
      cases hrr : randomRange u e1.rng
          (-(e1.sample_rate / e1.grain_density * e1.time_randomness))
          (e1.sample_rate / e1.grain_density * e1.time_randomness) with
      | none => rw [hrr] at h; exact Option.noConfusion h
      | some jk =>
        obtain ⟨j, k⟩ := jk
        rw [hrr] at h
        dsimp only at h
        cases hpg : processGrains M e1.buffer e1.grains with
        | none => rw [hpg] at h; exact Option.noConfusion h
        | some q =>
          obtain ⟨o, c, gs'⟩ := q
          rw [hpg] at h
          simp only [Option.some.injEq, Prod.mk.injEq] at h
          obtain ⟨-, h2⟩ := h
          have hflt : (gs'.filter (fun g => g.active)).length ≤ gs'.length :=
            List.length_filter_le _ _
          have hlen2 : gs'.length = e1.grains.length := processGrains_length M _ _ _ _ _ hpg
          rw [← h2]
          refine ⟨by simpa using hmax1, ?_, ?_⟩
          · dsimp only
            have h3 : e1.grains.length = e.grains.length + 1 := by simpa using hlen1
            have hle : e.grains.length + 1 ≤ e.max_grains := hcond.2
            omega
          · intro hcap
            exact absurd hcond.2 (by omega)
  · rw [if_neg hcond] at h
    dsimp only at h
    cases hpg : processGrains M e.buffer e.grains with
    | none => rw [hpg] at h; exact Option.noConfusion h
    | some q =>
      obtain ⟨o, c, gs'⟩ := q
      rw [hpg] at h
      simp only [Option.some.injEq, Prod.mk.injEq] at h
      obtain ⟨-, h2⟩ := h
      rw [← h2]
      have hflt : (gs'.filter (fun g => g.active)).length ≤ gs'.length :=
        List.length_filter_le _ _
      have hlen2 : gs'.length = e.grains.length := processGrains_length M _ _ _ _ _ hpg
      refine ⟨rfl, ?_, ?_⟩
      · dsimp only
        omega
      · intro hcap
        dsimp only
        omega

lemma write_input_grains (e : GranularEngine) (x : ℚ) :
    (e.write_input x).elim True (fun e' => e'.grains = e.grains ∧ e'.max_grains = e.max_grains) := by
  unfold GranularEngine.write_input GrainBuffer.write
  by_cases hw : e.buffer.write_pos < e.buffer.buffer.length ∧ e.buffer.capacity ≠ 0
  · rw [if_pos hw]
    exact ⟨rfl, rfl⟩
  · rw [if_neg hw]
    trivial

lemma runOps_cap (M : MathOracle) (u : ℕ → ℚ) :
    ∀ (ops : List EngineOp) (e : GranularEngine), e.grains.length ≤ e.max_grains →
      (runOps M u ops e).elim True
        (fun e2 => e2.max_grains = e.max_grains ∧ e2.grains.length ≤ e2.max_grains) := by
  intro ops
  induction ops with
  | nil =>
    intro e he
    exact ⟨rfl, he⟩
  | cons op ops ih =>
    intro e he
    cases op with
    | write x =>
      simp only [runOps]
      have hw := write_input_grains e x
      cases hwi : e.write_input x with
      | none => trivial
      | some e1 =>
        rw [hwi] at hw
        simp only [Option.elim_some] at hw
        dsimp only
        have h1 : e1.grains.length ≤ e1.max_grains := by
          rw [hw.1, hw.2]; exact he
        have := ih e1 h1
        cases hro : runOps M u ops e1 with
        | none => trivial
        | some e2 =>
          rw [hro] at this
          simp only [Option.elim_some] at this ⊢
          exact ⟨by rw [this.1, hw.2], this.2⟩
    | step =>
      simp only [runOps]
      cases hp : e.process M u with
      | none => trivial
      | some p =>
        obtain ⟨y, e1⟩ := p
        obtain ⟨hmax, hbound, -⟩ := process_some_grains_bound M u e y e1 hp
        have h1 : e1.grains.length ≤ e1.max_grains := by
          rw [hmax]
          exact hbound.trans (le_of_eq (max_eq_right he))
        have h2 := ih e1 h1
        show (runOps M u ops e1).elim True
          (fun e2 => e2.max_grains = e.max_grains ∧ e2.grains.length ≤ e2.max_grains)
        cases hro : runOps M u ops e1 with
        | none => trivial
        | some e2 =>
          rw [hro] at h2
          simp only [Option.elim_some] at h2 ⊢
          exact ⟨by rw [h2.1, hmax], h2.2⟩

/-- Claim C4: the live-grain count never exceeds the construction cap: a
process tick leaves the count at or below max(current, cap) (so the invariant
count ≤ cap is preserved), and at or below the current count whenever the
engine is at or above the cap (a due spawn is suppressed, not queued);
write_input leaves the grain collection untouched; and along any sequence of
API calls from a freshly constructed engine with cap m the count stays ≤ m. -/
theorem grain_cap_invariant :
    (∀ (M : MathOracle) (u : ℕ → ℚ) (e : GranularEngine),
      (e.process M u).elim True (fun p =>
        p.2.max_grains = e.max_grains ∧
        p.2.grains.length ≤ max e.grains.length e.max_grains ∧
        (e.max_grains ≤ e.grains.length → p.2.grains.length ≤ e.grains.length))) ∧
    (∀ (e : GranularEngine) (x : ℚ),
      (e.write_input x).elim True
        (fun e' => e'.grains = e.grains ∧ e'.max_grains = e.max_grains)) ∧
    (∀ (M : MathOracle) (u : ℕ → ℚ) (ops : List EngineOp)
        (sample_rate buffer_size_ms : ℚ) (m : ℕ),
      (runOps M u ops (GranularEngine.new sample_rate buffer_size_ms m)).elim True
        (fun e2 => e2.grains.length ≤ m)) := by
  refine ⟨?_, fun e x => write_input_grains e x, ?_⟩
  · intro M u e
    cases hp : e.process M u with
    | none => trivial
    | some p =>
      obtain ⟨y, e1⟩ := p
      simpa using process_some_grains_bound M u e y e1 hp
  · intro M u ops sample_rate buffer_size_ms m
    have h0 : (GranularEngine.new sample_rate buffer_size_ms m).grains.length ≤
        (GranularEngine.new sample_rate buffer_size_ms m).max_grains := by
      simp [GranularEngine.new]
    have := runOps_cap M u ops _ h0
    cases hro : runOps M u ops (GranularEngine.new sample_rate buffer_size_ms m) with
    | none => trivial
    | some e2 =>
      rw [hro] at this
      simp only [Option.elim_some] at this ⊢
      have hm : (GranularEngine.new sample_rate buffer_size_ms m).max_grains = m := rfl
      omega

/-- Witness for C4 along a concrete call sequence. -/
theorem grain_cap_invariant_witness :
    (runOps M0 u0 [EngineOp.write 1, EngineOp.step, EngineOp.step]
      (GranularEngine.new 1000 10 2)).elim True (fun e2 => e2.grains.length ≤ 2) :=
  grain_cap_invariant.2.2 M0 u0 [EngineOp.write 1, EngineOp.step, EngineOp.step] 1000 10 2

lemma aec_zero_step (e : EchoCanceller) (n : ℕ) (mic : ℚ)
    (hw : e.filter_weights = List.replicate n 0)
    (hr : e.reference_buffer = List.replicate n 0)
    (hp : e.buffer_pos < n) :
    ∃ e', e.process mic 0 = some (mic, e') ∧
      e'.filter_weights = List.replicate n 0 ∧
      e'.reference_buffer = List.replicate n 0 ∧
      e'.buffer_pos < n := by
  have hwl : e.filter_weights.length = n := by rw [hw]; simp
  have hrl : e.reference_buffer.length = n := by rw [hr]; simp
  have hn : 0 < n := lt_of_le_of_lt (Nat.zero_le _) hp
  have hset : e.reference_buffer.set e.buffer_pos 0 = List.replicate n 0 := by
    rw [hr]; exact set_replicate_zero n e.buffer_pos
  unfold EchoCanceller.process
  rw [if_pos ⟨by rw [hrl]; exact hp, by rw [hrl, hwl]⟩]
  dsimp only
  have hest : EchoCanceller.compute_echo_estimate
      { e with reference_buffer := e.reference_buffer.set e.buffer_pos 0 } = 0 := by
    unfold EchoCanceller.compute_echo_estimate
    dsimp only
    apply sum_map_range_zero
    intro i hi
    rw [hw, getD_replicate_zero]
    ring
  rw [hest, sub_zero]
  by_cases had : e.adaptation_enabled = true
  · rw [if_pos had]
    refine ⟨_, rfl, ?_, ?_, ?_⟩
    · unfold EchoCanceller.update_filter_weights
      dsimp only
      rw [List.eq_replicate_iff]
      constructor
      · simp [hw]
      · intro b hb
        rw [List.mem_map] at hb
        obtain ⟨i, hi, rfl⟩ := hb
        rw [hw, getD_replicate_zero, hset, getD_replicate_zero]
        ring
    · exact hset
    · unfold EchoCanceller.update_filter_weights
      dsimp only
      rw [hset]
      simp only [List.length_replicate]
      exact Nat.mod_lt _ hn
  · rw [if_neg had]
    refine ⟨_, rfl, hw, hset, ?_⟩
    dsimp only
    rw [hset]
    simp only [List.length_replicate]
    exact Nat.mod_lt _ hn

lemma runAECZero_inv (mics : List ℚ) :
    ∀ (e : EchoCanceller) (n : ℕ),
      e.filter_weights = List.replicate n 0 →
      e.reference_buffer = List.replicate n 0 →
      e.buffer_pos < n →
      ∃ e', runAECZero mics e = some (mics, e') ∧
        e'.filter_weights = List.replicate n 0 ∧
        e'.reference_buffer = List.replicate n 0 ∧
        e'.buffer_pos < n := by
  induction mics with
  | nil =>
    intro e n hw hr hp
    exact ⟨e, rfl, hw, hr, hp⟩
  | cons m ms ih =>
    intro e n hw hr hp
    obtain ⟨e1, hstep, hw1, hr1, hp1⟩ := aec_zero_step e n m hw hr hp
    obtain ⟨e2, hrun, hw2, hr2, hp2⟩ := ih e1 n hw1 hr1 hp1
    refine ⟨e2, ?_, hw2, hr2, hp2⟩
    simp only [runAECZero]
    rw [hstep]
    dsimp only
    rw [hrun]

/-- Claim C5: starting from a freshly constructed EchoCanceller (any positive
filter length, any step size, adaptation enabled or not), feeding any mic
sequence with the reference argument fixed at 0 returns exactly the mic
sequence, and the filter weights (and the reference buffer) stay identically
zero; since the mic sequence is universally quantified, the zero-weight
invariant holds after every intermediate step as well. -/
theorem aec_zero_reference_passthrough (filter_length : ℕ) (step_size : ℚ)
    (adapt : Bool) (mics : List ℚ) :
    ∃ e', runAECZero mics
        { EchoCanceller.new (filter_length + 1) step_size with adaptation_enabled := adapt } =
      some (mics, e') ∧
      e'.filter_weights = List.replicate (filter_length + 1) 0 ∧
      e'.reference_buffer = List.replicate (filter_length + 1) 0 := by
  obtain ⟨e', hrun, hw, hr, -⟩ := runAECZero_inv mics
    { EchoCanceller.new (filter_length + 1) step_size with adaptation_enabled := adapt }
    (filter_length + 1) rfl rfl (Nat.succ_pos _)
  exact ⟨e', hrun, hw, hr⟩

lemma map_zero_getD (l : List ℚ) (i : ℕ) : (l.map (fun _ => (0:ℚ))).getD i 0 = 0 := by
  induction l generalizing i with
  | nil => simp [List.getD]
  | cons a l ih =>
    cases i with
    | zero => simp
    | succ i => simp [ih]

/-- Claim C6: for every EchoCanceller whose state satisfies the structural
invariant of construction (equal-length weight and reference vectors, write
position in range), reset() zeroes every filter weight and every
reference-buffer entry, and the very next process(mic, ref) call returns
exactly mic for every mic and every ref. -/
theorem aec_reset_zero_and_passthrough (e : EchoCanceller)
    (h1 : e.buffer_pos < e.reference_buffer.length)
    (h2 : e.reference_buffer.length = e.filter_weights.length) :
    e.reset.filter_weights = List.replicate e.filter_weights.length 0 ∧
    e.reset.reference_buffer = List.replicate e.reference_buffer.length 0 ∧
    ∀ mic ref, (e.reset.process mic ref).map Prod.fst = some mic := by
  have hwmap : e.reset.filter_weights = e.filter_weights.map (fun _ => 0) := rfl
  have hrmap : e.reset.reference_buffer = e.reference_buffer.map (fun _ => 0) := rfl
  refine ⟨by rw [hwmap, List.map_const'], by rw [hrmap, List.map_const'], ?_⟩
  intro mic ref
  unfold EchoCanceller.process
  rw [if_pos ⟨by simpa [EchoCanceller.reset] using h1, by simpa [EchoCanceller.reset] using h2⟩]
  dsimp only
  have hest : EchoCanceller.compute_echo_estimate
      { e.reset with reference_buffer := e.reset.reference_buffer.set e.reset.buffer_pos ref } = 0 := by
    unfold EchoCanceller.compute_echo_estimate
    dsimp only
    apply sum_map_range_zero
    intro i hi
    have : EchoCanceller.filter_weights e.reset = e.filter_weights.map (fun _ => 0) := rfl
    rw [this, map_zero_getD]
    ring
  rw [hest, sub_zero]
  by_cases had : (EchoCanceller.adaptation_enabled e.reset) = true
  · rw [if_pos had]
    rfl
  · rw [if_neg had]
    rfl

/-- Witness for C6 on a concrete mutated canceller state. -/
theorem aec_reset_zero_and_passthrough_witness :
    (EchoCanceller.reset ⟨[1, 2, 3], [4, 5, 6], 1, 1/2, 1/1000000, true⟩).filter_weights =
      List.replicate 3 0 ∧
    (EchoCanceller.reset ⟨[1, 2, 3], [4, 5, 6], 1, 1/2, 1/1000000, true⟩).reference_buffer =
      List.replicate 3 0 ∧
    ((EchoCanceller.reset ⟨[1, 2, 3], [4, 5, 6], 1, 1/2, 1/1000000, true⟩).process 7 9).map
      Prod.fst = some 7 := by
  obtain ⟨hw, hr, hp⟩ := aec_reset_zero_and_passthrough
    ⟨[1, 2, 3], [4, 5, 6], 1, 1/2, 1/1000000, true⟩ (by simp) (by simp)
  exact ⟨hw, hr, hp 7 9⟩

/-- Claim C7: on every chorus step the delay offset equals
⌊sin(φ)·1000 + 2000⌋ samples for the advanced-and-wrapped phase φ, lies in
[1000, 3000] (a sample count, not milliseconds), and the returned value is
0.7·input + 0.3·delayed where delayed is the chorus-line entry offset samples
behind the write position (for the 4410-entry line built by new_dreamy). -/
theorem chorus_offset_and_mix (M : MathOracle) (ec : EffectsChain) (input : ℚ)
    (hsin : ∀ x, -1 ≤ M.sin x ∧ M.sin x ≤ 1)
    (hlen : ec.chorus_delay.length = 4410) (hpos : ec.chorus_pos < 4410) :
    1000 ≤ chorusOffset M ec ∧ chorusOffset M ec ≤ 3000 ∧
    (ec.process_chorus M input).map Prod.fst =
      some (7/10 * input +
        3/10 * ec.chorus_delay.getD ((ec.chorus_pos + 4410 - chorusOffset M ec) % 4410) 0) := by
  obtain ⟨hs1, hs2⟩ := hsin (chorusPhase M ec)
  have hlow : (1000 : ℤ) ≤ ⌊M.sin (chorusPhase M ec) * 1000 + 2000⌋ := by
    rw [Int.le_floor]
    push_cast
    linarith
  have hhigh : ⌊M.sin (chorusPhase M ec) * 1000 + 2000⌋ ≤ (3000 : ℤ) := by
    have : M.sin (chorusPhase M ec) * 1000 + 2000 ≤ ((3000 : ℤ) : ℚ) := by push_cast; linarith
    calc ⌊M.sin (chorusPhase M ec) * 1000 + 2000⌋ ≤ ⌊((3000 : ℤ) : ℚ)⌋ :=
          Int.floor_le_floor this
      _ = 3000 := Int.floor_intCast _
  have hofflow : 1000 ≤ chorusOffset M ec := by
    unfold chorusOffset
    omega
  have hoffhigh : chorusOffset M ec ≤ 3000 := by
    unfold chorusOffset
    omega
  refine ⟨hofflow, hoffhigh, ?_⟩
  unfold EffectsChain.process_chorus
  dsimp only
  rw [if_pos ⟨by rw [hlen]; norm_num, by rw [hlen]; show chorusOffset M ec ≤ _; omega,
    by rw [hlen]; exact hpos⟩]
  simp only [Option.map_some']
  rw [hlen]
  rfl

/-- Witness for C7 on the freshly built dreamy effects chain. -/
theorem chorus_offset_and_mix_witness :
    1000 ≤ chorusOffset M0 (EffectsChain.new_dreamy M0 44100) ∧
    chorusOffset M0 (EffectsChain.new_dreamy M0 44100) ≤ 3000 ∧
    ((EffectsChain.new_dreamy M0 44100).process_chorus M0 1).map Prod.fst = some (7/10) := by
  have hcd : (EffectsChain.new_dreamy M0 44100).chorus_delay = List.replicate 4410 0 := rfl
  obtain ⟨h1, h2, h3⟩ := chorus_offset_and_mix M0 (EffectsChain.new_dreamy M0 44100) 1
    (by intro x; constructor <;> norm_num [M0])
    (by rw [hcd, List.length_replicate])
    (by show (0:ℕ) < 4410; norm_num)
  refine ⟨h1, h2, ?_⟩
  rw [h3]
  have hdelay : (EffectsChain.new_dreamy M0 44100).chorus_delay = List.replicate 4410 0 := rfl
  rw [hdelay, getD_replicate_zero]
  norm_num

/-- Claim C1 (code evidence): the dreamy output loop never updates
previous_speaker_output — each frame's resulting state carries the same
reference value it started with, and the initial state sets it to 0 — so the
reference passed to EchoCanceller::process (and to the VAD) is identically 0,
never the previous frame's processed output. -/
theorem aec_reference_never_updated :
    (∀ (M : MathOracle) (u : ℕ → ℚ) (input : ℚ) (s : DreamyState),
      (dreamyStep M u input s).map (fun p => p.2.previous_speaker_output) =
      (dreamyStep M u input s).map (fun _ => s.previous_speaker_output)) ∧
    (∀ (M : MathOracle) (sample_rate : ℚ),
      (buildOutputState M sample_rate).previous_speaker_output = 0) := by
  constructor
  · intro M u input s
    apply Option.map_congr
    intro p hp
    unfold dreamyStep at hp
    cases h1 : s.echo_canceller.process input s.previous_speaker_output with
    | none => rw [h1] at hp; exact Option.noConfusion hp
    | some q =>
      obtain ⟨echo_cancelled, aec1⟩ := q
      rw [h1] at hp
      dsimp only at hp
      cases h2 : s.engine.write_input echo_cancelled with
      | none => rw [h2] at hp; exact Option.noConfusion hp
      | some engine1 =>
        rw [h2] at hp
        dsimp only at hp
        cases h3 : engine1.process M u with
        | none => rw [h3] at hp; exact Option.noConfusion hp
        | some r =>
          obtain ⟨granular_output, engine2⟩ := r
          rw [h3] at hp
          dsimp only at hp
          cases h4 : s.effects.process M granular_output with
          | none => rw [h4] at hp; exact Option.noConfusion hp
          | some w =>
            obtain ⟨processed, effects1⟩ := w
            rw [h4] at hp
            dsimp only at hp
            rw [Option.mem_def, Option.some.injEq] at hp
            rw [← hp]
  · intro M sample_rate
    rfl

lemma roundF32_near_four : roundF32 (4 - 1 / 2 ^ 30) = 4 := by
  have hx : (0:ℚ) < 4 - 1 / 2 ^ 30 := by norm_num
  have hne : (4 - 1 / 2 ^ 30 : ℚ) ≠ 0 := ne_of_gt hx
  unfold roundF32
  rw [if_neg hne, if_pos hx]
  unfold roundF32pos
  have hlog : Int.log 2 (4 - 1 / 2 ^ 30 : ℚ) = 1 := by
    have h1 : (1:ℤ) ≤ Int.log 2 (4 - 1 / 2 ^ 30 : ℚ) := by
      rw [← Int.zpow_le_iff_le_log (by norm_num) hx]
      norm_num
    have h2 : Int.log 2 (4 - 1 / 2 ^ 30 : ℚ) < 2 := by
      rw [← Int.lt_zpow_iff_log_lt (by norm_num) hx]
      norm_num
    omega
  rw [hlog]
  dsimp only
  have hscale : ((2:ℚ) ^ ((1:ℤ) - 23)) = 1 / 2 ^ 22 := by
    norm_num
  rw [hscale]
  have hm : (4 - 1 / 2 ^ 30 : ℚ) / (1 / 2 ^ 22) = 2 ^ 24 - 1 / 2 ^ 8 := by
    norm_num
  rw [hm]
  have hfl : ⌊(2 ^ 24 - 1 / 2 ^ 8 : ℚ)⌋ = 2 ^ 24 - 1 := by
    rw [Int.floor_eq_iff]
    constructor <;> push_cast <;> norm_num
  rw [hfl]
  rw [if_neg (by push_cast; norm_num), if_pos (by push_cast; norm_num)]
  push_cast
  norm_num

/-- Claim C9 (code evidence): at the f32-representable position −2⁻³⁰ — a tiny
negative value of exactly the kind produced by start_pos = write_pos −
lookback·C — on a capacity-4 buffer, the f32 rem_euclid path of
GrainBuffer::read computes exactly the capacity (fmod returns −2⁻³⁰ exactly,
then −2⁻³⁰ + 4 rounds to 4.0 in binary32), so the truncated index equals the
capacity and the source's buffer[idx] indexing panics, contradicting the
claimed (and spec-prescribed) in-bounds, panic-free p mod C semantics. -/
theorem read_f32_tiny_negative_oob :
    rem_euclid_f32 (-(1 / 2 ^ 30)) ((GrainBuffer.new 4).capacity : ℚ) = 4 ∧
    (GrainBuffer.new 4).read_f32 (-(1 / 2 ^ 30)) = none := by
  have hcap : ((GrainBuffer.new 4).capacity : ℚ) = 4 := by norm_num [GrainBuffer.new]
  have hre : rem_euclid_f32 (-(1 / 2 ^ 30)) (4:ℚ) = 4 := by
    unfold rem_euclid_f32 ratTrunc
    rw [if_pos (by norm_num : (-(1 / 2 ^ 30) : ℚ) / 4 < 0)]
    have hfl : ⌊(-(-(1 / 2 ^ 30) / 4) : ℚ)⌋ = 0 := by
      rw [Int.floor_eq_zero_iff]
      constructor <;> norm_num
    rw [hfl]
    rw [if_pos (by norm_num : (-(1 / 2 ^ 30) - 4 * ((-(0:ℤ) : ℤ) : ℚ) : ℚ) < 0)]
    have : (-(1 / 2 ^ 30) - 4 * ((-(0:ℤ) : ℤ) : ℚ) + 4 : ℚ) = 4 - 1 / 2 ^ 30 := by
      push_cast; ring
    rw [this, roundF32_near_four]
  constructor
  · rw [hcap, hre]
  · unfold GrainBuffer.read_f32
    rw [if_neg (by norm_num [GrainBuffer.new])]
    dsimp only
    rw [hcap, hre]
    have h4 : (⌊(4:ℚ)⌋).toNat = 4 := by
      have hf : ⌊(4:ℚ)⌋ = 4 := by norm_num
      rw [hf]
      rfl
    have hlen : (GrainBuffer.new 4).buffer.length = 4 := by simp [GrainBuffer.new]
    rw [if_neg (by rw [h4, hlen]; omega)]
